import Mathlib

/-!
Verification of the session-think-mcp core (index.js) against its
natural-language specification.  The JavaScript source is shallowly
embedded: strings are `List Char` wrapped in `String`, timestamps are
`Nat` (epoch order), the file store is an association list from file
names to file contents, and the nondeterministic parts of the source
(`Date.now()`-based ids and timestamps) are explicit parameters.
-/

namespace SessionThink

/-! ## Name codec (index.js: validateSessionName, sanitizeSessionName,
desanitizeFilename) -/

/-- Character class `[a-zA-Z0-9_-]` of the default
`SESSION_NAME_PATTERN` regex. -/
def isNameChar (c : Char) : Bool :=
  ('a' ≤ c && c ≤ 'z') || ('A' ≤ c && c ≤ 'Z') || ('0' ≤ c && c ≤ '9')
    || c = '_' || c = '-'

/-- The filename-unsafe class `[<>:"/\\|?*\x00-\x1f]` used by
`sanitizeSessionName`'s third replacement. -/
def isUnsafeChar (c : Char) : Bool :=
  c = '<' || c = '>' || c = ':' || c = '"' || c = '/' || c = '\\'
    || c = '|' || c = '?' || c = '*' || decide (c.toNat ≤ 31)

/-- `replace(/_+/g, '_')`: collapse every run of underscores to a
single underscore.  An underscore is dropped exactly when the next
character is again an underscore. -/
def collapseU : List Char → List Char
  | [] => []
  | [c] => [c]
  | c₁ :: c₂ :: rest =>
    if c₁ = '_' ∧ c₂ = '_' then collapseU (c₂ :: rest)
    else c₁ :: collapseU (c₂ :: rest)

/-- `replace(/:/g, '___')`: every colon becomes a triple underscore. -/
def replaceColons : List Char → List Char
  | [] => []
  | c :: rest => (if c = ':' then ['_', '_', '_'] else [c]) ++ replaceColons rest

/-- `replace(/[<>:"/\\|?*\x00-\x1f]/g, '_')`. -/
def replaceUnsafe (l : List Char) : List Char :=
  l.map (fun c => if isUnsafeChar c then '_' else c)

/-- `sanitizeSessionName` from index.js: collapse underscore runs, then
replace colons by `___`, then replace remaining unsafe characters by
`_`. -/
def sanitizeSessionName (s : String) : String :=
  String.mk (replaceUnsafe (replaceColons (collapseU s.data)))

/-- `filename.replace('.json', '')`: remove the first occurrence of the
pattern (JavaScript `String.prototype.replace` with a string argument
replaces only the first occurrence). -/
def removeFirstSub (pat : List Char) : List Char → List Char
  | [] => []
  | c :: rest =>
    if pat.isPrefixOf (c :: rest) then (c :: rest).drop pat.length
    else c :: removeFirstSub pat rest

/-- `replace(/___/g, ':')`: leftmost non-overlapping triples of
underscores become colons. -/
def replaceTriple : List Char → List Char
  | [] => []
  | [c] => [c]
  | [c₁, c₂] => [c₁, c₂]
  | c₁ :: c₂ :: c₃ :: rest =>
    if c₁ = '_' ∧ c₂ = '_' ∧ c₃ = '_' then ':' :: replaceTriple rest
    else c₁ :: replaceTriple (c₂ :: c₃ :: rest)

/-- `desanitizeFilename` from index.js: drop the first `.json`
occurrence, then turn triple underscores back into colons. -/
def desanitizeFilename (s : String) : String :=
  String.mk (replaceTriple (removeFirstSub ".json".data s.data))

/-- Split a character list at colons (used to state the default name
pattern `^[a-zA-Z0-9_-]+(:[a-zA-Z0-9_-]+){2,}$` semantically: at least
three colon-separated nonempty segments over the name class). -/
def splitCols : List Char → List (List Char)
  | [] => [[]]
  | c :: rest =>
    if c = ':' then [] :: splitCols rest
    else
      match splitCols rest with
      | [] => [[c]]
      | p :: ps => (c :: p) :: ps

/-- The default `SESSION_NAME_PATTERN` as a decidable check: the full
string is `seg(:seg){2,}` with every segment a nonempty run of
`[a-zA-Z0-9_-]`. -/
def validName (l : List Char) : Bool :=
  decide ((splitCols l).length ≥ 3)
    && (splitCols l).all (fun p => (!p.isEmpty) && p.all isNameChar)

/-- `validateSessionName` from index.js under the default pattern
(returning whether the regex test succeeds; on failure the source
throws). -/
def validateSessionName (s : String) : Bool :=
  validName s.data

/-- No underscore is immediately followed by an underscore or a colon.
This is the side condition under which the codec round-trips (see the
C1 analysis below). -/
def noBadPairs : List Char → Bool
  | c₁ :: c₂ :: rest =>
    (!(c₁ = '_' ∧ (c₂ = '_' ∨ c₂ = ':'))) && noBadPairs (c₂ :: rest)
  | _ => true

/-! ### Codec lemmas -/

theorem char_eq_iff_toNat {c d : Char} : c = d ↔ c.toNat = d.toNat :=
  ⟨fun h => h ▸ rfl, fun h => Char.ext (UInt32.ext h)⟩

theorem nameChar_toNat {c : Char} (h : isNameChar c = true) :
    (97 ≤ c.toNat ∧ c.toNat ≤ 122) ∨ (65 ≤ c.toNat ∧ c.toNat ≤ 90) ∨
    (48 ≤ c.toNat ∧ c.toNat ≤ 57) ∨ c.toNat = 95 ∨ c.toNat = 45 := by
  simp only [isNameChar, Bool.or_eq_true, Bool.and_eq_true, decide_eq_true_eq,
    Char.le_def, char_eq_iff_toNat] at h
  rcases h with (((⟨h1, h2⟩ | ⟨h1, h2⟩) | ⟨h1, h2⟩) | h) | h
  · exact Or.inl ⟨h1, h2⟩
  · exact Or.inr (Or.inl ⟨h1, h2⟩)
  · exact Or.inr (Or.inr (Or.inl ⟨h1, h2⟩))
  · exact Or.inr (Or.inr (Or.inr (Or.inl h)))
  · exact Or.inr (Or.inr (Or.inr (Or.inr h)))

theorem nameChar_not_unsafe {c : Char} (h : isNameChar c = true) :
    isUnsafeChar c = false := by
  have hn := nameChar_toNat h
  simp only [isUnsafeChar, Bool.or_eq_false_iff, decide_eq_false_iff_not,
    char_eq_iff_toNat]
  have e1 : ('<').toNat = 60 := rfl
  have e2 : ('>').toNat = 62 := rfl
  have e3 : (':').toNat = 58 := rfl
  have e4 : ('"').toNat = 34 := rfl
  have e5 : ('/').toNat = 47 := rfl
  have e6 : ('\\').toNat = 92 := rfl
  have e7 : ('|').toNat = 124 := rfl
  have e8 : ('?').toNat = 63 := rfl
  have e9 : ('*').toNat = 42 := rfl
  rw [e1, e2, e3, e4, e5, e6, e7, e8, e9]
  omega

theorem nameChar_ne_dot {c : Char} (h : isNameChar c = true) : c ≠ '.' := by
  have hn := nameChar_toNat h
  intro hc
  rw [char_eq_iff_toNat] at hc
  have : ('.').toNat = 46 := rfl
  rw [this] at hc
  omega

theorem noBadPairs_tail {c : Char} {l : List Char}
    (h : noBadPairs (c :: l) = true) : noBadPairs l = true := by
  cases l with
  | nil => rfl
  | cons d rest => simp only [noBadPairs, Bool.and_eq_true] at h; exact h.2

theorem noBadPairs_head {c d : Char} {l : List Char}
    (h : noBadPairs (c :: d :: l) = true) :
    ¬(c = '_' ∧ (d = '_' ∨ d = ':')) := by
  simp only [noBadPairs, Bool.and_eq_true, Bool.not_eq_true',
    decide_eq_false_iff_not] at h
  exact h.1

theorem collapseU_eq_self (l : List Char) (h : noBadPairs l = true) :
    collapseU l = l := by
  induction l using collapseU.induct with
  | case1 => rfl
  | case2 c => rfl
  | case3 c₁ c₂ rest huu ih =>
    exfalso
    exact noBadPairs_head h ⟨huu.1, Or.inl huu.2⟩
  | case4 c₁ c₂ rest hne ih =>
    simp only [collapseU, if_neg hne]
    rw [ih (noBadPairs_tail h)]

theorem replaceUnsafe_eq_self (l : List Char)
    (h : ∀ c ∈ l, isUnsafeChar c = false) : replaceUnsafe l = l := by
  unfold replaceUnsafe
  induction l with
  | nil => rfl
  | cons c rest ih =>
    have h1 : isUnsafeChar c = false := h c (List.mem_cons_self c rest)
    rw [List.map_cons, h1]
    simp only [Bool.false_eq_true, if_false]
    rw [ih (fun d hd => h d (List.mem_cons_of_mem c hd))]

theorem replaceTriple_cons₃ (c₁ c₂ c₃ : Char) (rest : List Char) :
    replaceTriple (c₁ :: c₂ :: c₃ :: rest) =
      if c₁ = '_' ∧ c₂ = '_' ∧ c₃ = '_' then ':' :: replaceTriple rest
      else c₁ :: replaceTriple (c₂ :: c₃ :: rest) := by
  rw [replaceTriple]

theorem replaceTriple_cons_of_ne {c : Char} (hc : c ≠ '_') (l : List Char) :
    replaceTriple (c :: l) = c :: replaceTriple l := by
  match l with
  | [] => rfl
  | [d] => rfl
  | d :: e :: rest =>
    rw [replaceTriple_cons₃, if_neg]
    rintro ⟨h1, -⟩
    exact hc h1

theorem replaceTriple_underscore {l : List Char}
    (h : l = [] ∨ ∃ d l', l = d :: l' ∧ d ≠ '_') :
    replaceTriple ('_' :: l) = '_' :: replaceTriple l := by
  rcases h with rfl | ⟨d, l', rfl, hd⟩
  · rfl
  · match l' with
    | [] => rfl
    | e :: rest =>
      rw [replaceTriple_cons₃, if_neg]
      rintro ⟨-, h2, -⟩
      exact hd h2

theorem replaceColons_head_ne {c : Char} {rest : List Char} (hc : c ≠ ':') :
    replaceColons (c :: rest) = c :: replaceColons rest := by
  simp [replaceColons, hc]

theorem replaceTriple_replaceColons (l : List Char) (h : noBadPairs l = true) :
    replaceTriple (replaceColons l) = l := by
  induction l with
  | nil => rfl
  | cons c rest ih =>
    by_cases hc : c = ':'
    · subst hc
      have hrc : replaceColons (':' :: rest) =
          '_' :: '_' :: '_' :: replaceColons rest := by
        simp [replaceColons]
      rw [hrc, replaceTriple_cons₃, if_pos ⟨rfl, rfl, rfl⟩]
      rw [ih (noBadPairs_tail h)]
    · rw [replaceColons_head_ne hc]
      by_cases hu : c = '_'
      · subst hu
        have hhead : replaceColons rest = [] ∨
            ∃ d l', replaceColons rest = d :: l' ∧ d ≠ '_' := by
          cases rest with
          | nil => exact Or.inl rfl
          | cons d rest' =>
            have hd := noBadPairs_head h
            have hdu : d ≠ '_' := fun he => hd ⟨rfl, Or.inl he⟩
            have hdc : d ≠ ':' := fun he => hd ⟨rfl, Or.inr he⟩
            exact Or.inr ⟨d, replaceColons rest', replaceColons_head_ne hdc, hdu⟩
        rw [replaceTriple_underscore hhead]
        rw [ih (noBadPairs_tail h)]
      · rw [replaceTriple_cons_of_ne hu]
        rw [ih (noBadPairs_tail h)]

theorem removeFirstSub_append {p : Char} {ps : List Char} (l : List Char)
    (h : ∀ c ∈ l, c ≠ p) :
    removeFirstSub (p :: ps) (l ++ (p :: ps)) = l := by
  induction l with
  | nil =>
    simp only [List.nil_append]
    rw [removeFirstSub, if_pos]
    · simp
    · rw [List.isPrefixOf_iff_prefix]
  | cons c rest ih =>
    simp only [List.cons_append]
    rw [removeFirstSub, if_neg]
    · rw [ih (fun d hd => h d (List.mem_cons_of_mem c hd))]
    · intro hpre
      rw [List.isPrefixOf_iff_prefix] at hpre
      obtain ⟨t, ht⟩ := hpre
      rw [List.cons_append] at ht
      injection ht with h1 _
      exact h c (List.mem_cons_self c rest) h1.symm

theorem splitCols_ne_nil (l : List Char) : splitCols l ≠ [] := by
  cases l with
  | nil => simp [splitCols]
  | cons c rest =>
    by_cases hc : c = ':'
    · simp [splitCols, hc]
    · simp only [splitCols, if_neg hc]
      cases splitCols rest with
      | nil => simp
      | cons p ps => simp

theorem mem_splitCols {c : Char} {l : List Char} (h : c ∈ l) :
    c = ':' ∨ ∃ p ∈ splitCols l, c ∈ p := by
  induction l with
  | nil => cases h
  | cons d rest ih =>
    obtain ⟨q, qs, hrest⟩ : ∃ q qs, splitCols rest = q :: qs := by
      cases hs : splitCols rest with
      | nil => exact absurd hs (splitCols_ne_nil rest)
      | cons q qs => exact ⟨q, qs, rfl⟩
    by_cases hd : d = ':'
    · rcases List.mem_cons.mp h with hceq | hmem
      · exact Or.inl (hceq.trans hd)
      · rcases ih hmem with hcol | ⟨p, hp, hcp⟩
        · exact Or.inl hcol
        · refine Or.inr ⟨p, ?_, hcp⟩
          simp only [splitCols, if_pos hd]
          exact List.mem_cons_of_mem _ hp
    · have hsc : splitCols (d :: rest) = (d :: q) :: qs := by
        simp only [splitCols, if_neg hd, hrest]
      rcases List.mem_cons.mp h with hceq | hmem
      · exact Or.inr ⟨d :: q, by rw [hsc]; exact List.mem_cons_self _ _,
          by rw [hceq]; exact List.mem_cons_self _ _⟩
      · rcases ih hmem with hcol | ⟨p, hp, hcp⟩
        · exact Or.inl hcol
        · rw [hrest] at hp
          rcases List.mem_cons.mp hp with hpq | hq
          · exact Or.inr ⟨d :: q, by rw [hsc]; exact List.mem_cons_self _ _,
              by rw [← hpq]; exact List.mem_cons_of_mem d hcp⟩
          · exact Or.inr ⟨p, by rw [hsc]; exact List.mem_cons_of_mem _ hq, hcp⟩

theorem validName_chars {l : List Char} (h : validName l = true) :
    ∀ c ∈ l, isNameChar c = true ∨ c = ':' := by
  intro c hc
  rcases mem_splitCols hc with hcol | ⟨p, hp, hcp⟩
  · exact Or.inr hcol
  · simp only [validName, Bool.and_eq_true, List.all_eq_true] at h
    exact Or.inl ((h.2 p hp).2 c hcp)

theorem mem_replaceColons {c : Char} {l : List Char}
    (h : c ∈ replaceColons l) : c = '_' ∨ (c ∈ l ∧ c ≠ ':') := by
  induction l with
  | nil => cases h
  | cons d rest ih =>
    by_cases hd : d = ':'
    · subst hd
      simp only [replaceColons, if_pos rfl, List.cons_append,
        List.nil_append] at h
      rcases List.mem_cons.mp h with hc | h2
      · exact Or.inl hc
      rcases List.mem_cons.mp h2 with hc | h3
      · exact Or.inl hc
      rcases List.mem_cons.mp h3 with hc | h4
      · exact Or.inl hc
      · rcases ih h4 with hu | ⟨hmem, hne⟩
        · exact Or.inl hu
        · exact Or.inr ⟨List.mem_cons_of_mem _ hmem, hne⟩
    · rw [replaceColons_head_ne hd] at h
      rcases List.mem_cons.mp h with hceq | hmem
      · exact Or.inr ⟨by rw [hceq]; exact List.mem_cons_self _ _,
          by rw [hceq]; exact hd⟩
      · rcases ih hmem with hu | ⟨hmem2, hne⟩
        · exact Or.inl hu
        · exact Or.inr ⟨List.mem_cons_of_mem _ hmem2, hne⟩

/-- The composite round-trip fact: a pattern-valid logical name with no
double underscore and no underscore directly before a colon is
recovered exactly by `desanitizeFilename` after `sanitizeSessionName`
plus the store's `.json` suffix. -/
theorem codec_roundtrip (n : String) (hv : validateSessionName n = true)
    (hb : noBadPairs n.data = true) :
    desanitizeFilename (sanitizeSessionName n ++ ".json") = n := by
  have hchars := validName_chars (l := n.data) hv
  have hsan : sanitizeSessionName n = String.mk (replaceColons n.data) := by
    unfold sanitizeSessionName
    rw [collapseU_eq_self n.data hb]
    rw [replaceUnsafe_eq_self]
    intro c hc
    rcases mem_replaceColons hc with hu | ⟨hmem, hne⟩
    · rw [hu]; rfl
    · rcases hchars c hmem with hname | hcol
      · exact nameChar_not_unsafe hname
      · exact absurd hcol hne
  have hnodot : ∀ c ∈ replaceColons n.data, c ≠ '.' := by
    intro c hc
    rcases mem_replaceColons hc with hu | ⟨hmem, hne⟩
    · rw [hu]; decide
    · rcases hchars c hmem with hname | hcol
      · exact nameChar_ne_dot hname
      · exact absurd hcol hne
  have hdata : (sanitizeSessionName n ++ ".json").data =
      replaceColons n.data ++ ('.' :: ['j', 's', 'o', 'n']) := by
    rw [hsan]; rfl
  unfold desanitizeFilename
  rw [hdata]
  rw [removeFirstSub_append (replaceColons n.data) hnodot]
  rw [replaceTriple_replaceColons n.data hb]

/-- C1: the round-trip/injectivity claim fails on the code.  The
underscore-collapse step of `sanitizeSessionName` is lossy: the valid
names `a__b:c:d` and `a_b:c:d` encode to the same file name, and
decoding returns `a_b:c:d` for both. -/
theorem c1_counterexample :
    validateSessionName "a__b:c:d" = true ∧
    validateSessionName "a_b:c:d" = true ∧
    "a__b:c:d" ≠ "a_b:c:d" ∧
    sanitizeSessionName "a__b:c:d" = sanitizeSessionName "a_b:c:d" ∧
    desanitizeFilename (sanitizeSessionName "a__b:c:d" ++ ".json") ≠
      "a__b:c:d" := by
  decide

/-- C1 (amended): for every logical session name accepted by
`validateSessionName` (default pattern) that contains no two
consecutive underscores and no underscore immediately followed by a
colon, `desanitizeFilename` applied to `sanitizeSessionName` of the
name (with the `.json` extension appended and removed as the store
does) returns the original name, and `sanitizeSessionName` is
injective over this set of names. -/
theorem c1_roundtrip_amended (n : String)
    (hv : validateSessionName n = true) (hb : noBadPairs n.data = true) :
    desanitizeFilename (sanitizeSessionName n ++ ".json") = n ∧
    ∀ m : String, validateSessionName m = true → noBadPairs m.data = true →
      sanitizeSessionName m = sanitizeSessionName n → m = n := by
  refine ⟨codec_roundtrip n hv hb, ?_⟩
  intro m hmv hmb heq
  rw [← codec_roundtrip m hmv hmb, ← codec_roundtrip n hv hb, heq]

/-- Witness for the amended C1 at a concrete valid name. -/
theorem c1_roundtrip_amended_witness :
    desanitizeFilename
      (sanitizeSessionName "thesis:NVDA:ai_dominance" ++ ".json") =
      "thesis:NVDA:ai_dominance" :=
  (c1_roundtrip_amended "thesis:NVDA:ai_dominance" (by decide) (by decide)).1

/-! ## Data model -/

/-- One entry of a thought's `relationships_in` / `relationships_out`
list: `{ thought_id, relationship_type }` as pushed by the `think`
tool. -/
structure RelEntry where
  thought_id : String
  relationship_type : String
deriving DecidableEq

/-- A persisted thought record as built by the `think` tool.
Timestamps are modelled as `Nat` in creation order (the source stores
ISO strings and compares them via `Date`). -/
structure Thought where
  id : String
  content : String
  mode : String
  tags : List String
  timestamp : Nat
  relates_to : Option String
  relationship_type : Option String
  relationships_in : List RelEntry
  relationships_out : List RelEntry
deriving DecidableEq

/-- JavaScript truthiness of an optional string field: `null` and the
empty string are falsy. -/
def optTruthy : Option String → Bool
  | none => false
  | some s => s ≠ ""

/-! ## Reasoning chain (index.js: buildReasoningChain) -/

/-- One entry of the reconstructed reasoning chain.  `truncated` and
`note` are absent (`false`/`none`) unless the display-truncation step
sets them. -/
structure ChainEntry where
  id : String
  content_preview : String
  mode : String
  timestamp : Nat
  relationship_type : Option String
  truncated : Bool
  note : Option String
deriving DecidableEq

/-- `content.substring(0, n) + (content.length > n ? "..." : "")`. -/
def contentPreview (n : Nat) (s : String) : String :=
  String.mk (s.data.take n) ++ (if n < s.data.length then "..." else "")

/-- Chain entry produced for one visited thought. -/
def mkChainEntry (t : Thought) : ChainEntry :=
  { id := t.id, content_preview := contentPreview 120 t.content,
    mode := t.mode, timestamp := t.timestamp,
    relationship_type := t.relationship_type,
    truncated := false, note := none }

/-- The `while` loop of `buildReasoningChain`, in visit order (the
source `unshift`s each entry, so the final chain is the reverse of
this list).  `fuel` is the remaining capacity of the `chain.length <
20` guard; `visited` is the cycle guard set. -/
def chainWalkRev (thoughts : List Thought) :
    Nat → List String → String → List ChainEntry
  | 0, _, _ => []
  | fuel + 1, visited, currentId =>
    if currentId = "" ∨ currentId ∈ visited then []
    else
      match thoughts.find? (fun t => t.id == currentId) with
      | none => []
      | some t =>
        if t.relationship_type = some "builds_on" ∧ optTruthy t.relates_to
        then mkChainEntry t ::
          chainWalkRev thoughts fuel (currentId :: visited) (t.relates_to.getD "")
        else [mkChainEntry t]

/-- Result record of `buildReasoningChain`. -/
structure ChainResult where
  chain : List ChainEntry
  total_length : Nat
  truncated : Bool
deriving DecidableEq

/-- Mark the first retained entry of a display-truncated chain, as the
source does with `truncatedChain[0] = { ...truncatedChain[0],
truncated: true, note: ... }`. -/
def markFirstTruncated (omitted : Nat) : List ChainEntry → List ChainEntry
  | [] => []
  | e :: rest =>
    { e with
      truncated := true
      note := some ("... (" ++ toString omitted ++
        " earlier thoughts in chain)") } :: rest

/-- `buildReasoningChain` from index.js: walk backward through
`builds_on` edges (visited-set cycle guard, depth cap 20), then if the
chain exceeds 7 entries keep only the most recent 7 (`slice(-7)`) and
flag the oldest retained entry. -/
def buildReasoningChain (thoughtId : String) (thoughts : List Thought) :
    ChainResult :=
  let chain := (chainWalkRev thoughts 20 [] thoughtId).reverse
  if chain.length > 7 then
    { chain := markFirstTruncated (chain.length - 7)
        (chain.drop (chain.length - 7)),
      total_length := chain.length, truncated := true }
  else
    { chain := chain, total_length := chain.length, truncated := false }

/-- The length of the `builds_on` ancestry walk without the depth cap
of 20: the same loop with fuel `max 20 (thoughts.length + 1)`, which
the walk can never exhaust (the visited-set guard stops it after at
most `thoughts.length` found thoughts plus one final step). -/
def ancestryLength (thoughtId : String) (thoughts : List Thought) : Nat :=
  (chainWalkRev thoughts (max 20 (thoughts.length + 1)) [] thoughtId).length

/-- A linear chain of `n` thoughts `t0 … t(n-1)`, each (after the
first) building on its predecessor — concrete data for the chain
claims. -/
def mkChain (n : Nat) : List Thought :=
  (List.range n).map (fun i =>
    { id := "t" ++ toString i, content := "c" ++ toString i,
      mode := "linear", tags := [], timestamp := i,
      relates_to := if i = 0 then none else some ("t" ++ toString (i - 1)),
      relationship_type := if i = 0 then none else some "builds_on",
      relationships_in := [], relationships_out := [] })

/-! ### Reasoning-chain lemmas -/

theorem chainWalkRev_take (ts : List Thought) :
    ∀ (f₁ f₂ : Nat), f₁ ≤ f₂ → ∀ (v : List String) (c : String),
      chainWalkRev ts f₁ v c = (chainWalkRev ts f₂ v c).take f₁ := by
  intro f₁
  induction f₁ with
  | zero => intro f₂ _ v c; simp [chainWalkRev]
  | succ f ih =>
    intro f₂ hle v c
    obtain ⟨g, rfl⟩ : ∃ g, f₂ = g + 1 := ⟨f₂ - 1, by omega⟩
    simp only [chainWalkRev]
    by_cases h1 : c = "" ∨ c ∈ v
    · simp [h1]
    · simp only [if_neg h1]
      cases hf : ts.find? (fun t => t.id == c) with
      | none => simp
      | some t =>
        by_cases h2 : t.relationship_type = some "builds_on" ∧
            optTruthy t.relates_to = true
        · simp only [if_pos h2, List.take_succ_cons]
          rw [ih g (by omega)]
        · simp [if_neg h2]

theorem markFirstTruncated_length (n : Nat) (l : List ChainEntry) :
    (markFirstTruncated n l).length = l.length := by
  cases l with
  | nil => rfl
  | cons e rest => rfl

theorem buildReasoningChain_total_length (tid : String) (ts : List Thought) :
    (buildReasoningChain tid ts).total_length = min (ancestryLength tid ts) 20 := by
  have h20 : (20 : Nat) ≤ max 20 (ts.length + 1) := Nat.le_max_left _ _
  have htake := chainWalkRev_take ts 20 (max 20 (ts.length + 1)) h20 [] tid
  have hlen : (chainWalkRev ts 20 [] tid).length =
      min (ancestryLength tid ts) 20 := by
    rw [htake, List.length_take, ancestryLength, Nat.min_comm]
  unfold buildReasoningChain
  by_cases h7 : ((chainWalkRev ts 20 [] tid).reverse).length > 7
  · simp only [if_pos h7]
    rw [List.length_reverse, hlen]
  · simp only [if_neg h7]
    rw [List.length_reverse, hlen]

theorem buildReasoningChain_spec (tid : String) (ts : List Thought) :
    (buildReasoningChain tid ts).chain.length =
      min (buildReasoningChain tid ts).total_length 7 ∧
    (buildReasoningChain tid ts).truncated =
      decide (7 < (buildReasoningChain tid ts).total_length) ∧
    (7 < (buildReasoningChain tid ts).total_length →
      ∃ e rest, (buildReasoningChain tid ts).chain = e :: rest ∧
        e.truncated = true ∧
        e.note = some ("... (" ++
          toString ((buildReasoningChain tid ts).total_length - 7) ++
          " earlier thoughts in chain)")) := by
  unfold buildReasoningChain
  set L := (chainWalkRev ts 20 [] tid).reverse with hL
  by_cases h7 : L.length > 7
  · simp only [if_pos h7]
    have hdroplen : (L.drop (L.length - 7)).length = 7 := by
      rw [List.length_drop]; omega
    refine ⟨?_, ?_, ?_⟩
    · simp only [markFirstTruncated_length, hdroplen]
      omega
    · simp [h7]
    · intro _
      obtain ⟨e, rest, hrest⟩ : ∃ e rest, L.drop (L.length - 7) = e :: rest := by
        cases hd : L.drop (L.length - 7) with
        | nil => rw [hd] at hdroplen; simp at hdroplen
        | cons e rest => exact ⟨e, rest, rfl⟩
      show ∃ e' rest',
        markFirstTruncated (L.length - 7) (L.drop (L.length - 7)) =
          e' :: rest' ∧ e'.truncated = true ∧
        e'.note = some ("... (" ++ toString (L.length - 7) ++
          " earlier thoughts in chain)")
      rw [hrest]
      exact ⟨_, rest, rfl, rfl, rfl⟩
  · simp only [if_neg h7]
    refine ⟨?_, ?_, ?_⟩
    · show L.length = min L.length 7
      omega
    · show false = decide (7 < L.length)
      exact (decide_eq_false (by omega)).symm
    · intro hcontra
      have hc : 7 < L.length := hcontra
      omega

/-- C3: the claim that `total_length` always equals the true
untruncated ancestry length fails: the traversal is capped at depth 20,
so a 21-link `builds_on` chain reports `total_length = 20` while its
true ancestry length is 21. -/
theorem c3_counterexample :
    ancestryLength "t20" (mkChain 21) = 21 ∧
    (buildReasoningChain "t20" (mkChain 21)).total_length = 20 := by
  decide

/-- C3 (amended): `buildReasoningChain` truncates a chain longer than 7
to its most recent 7 entries, marks the oldest retained entry with a
truncation flag and the count of omitted entries, and `total_length`
equals the length of the walked chain — the true `builds_on` ancestry
length capped at the traversal depth 20 (`min ancestry 20`), rather
than the true length unconditionally.  In particular a chain of 9
sequential `builds_on` links reconstructed from the last thought yields
exactly 7 entries with `total_length = 9`. -/
theorem c3_chain_amended :
    (∀ (tid : String) (ts : List Thought),
      (buildReasoningChain tid ts).total_length =
        min (ancestryLength tid ts) 20 ∧
      (buildReasoningChain tid ts).chain.length =
        min (buildReasoningChain tid ts).total_length 7 ∧
      (buildReasoningChain tid ts).truncated =
        decide (7 < (buildReasoningChain tid ts).total_length) ∧
      (7 < (buildReasoningChain tid ts).total_length →
        ∃ e rest, (buildReasoningChain tid ts).chain = e :: rest ∧
          e.truncated = true ∧
          e.note = some ("... (" ++
            toString ((buildReasoningChain tid ts).total_length - 7) ++
            " earlier thoughts in chain)"))) ∧
    (buildReasoningChain "t8" (mkChain 9)).chain.length = 7 ∧
    (buildReasoningChain "t8" (mkChain 9)).total_length = 9 ∧
    (buildReasoningChain "t8" (mkChain 9)).truncated = true ∧
    ((buildReasoningChain "t8" (mkChain 9)).chain.map
      (fun e => e.truncated)) = [true, false, false, false, false, false, false] := by
  refine ⟨?_, by decide, by decide, by decide, by decide⟩
  intro tid ts
  exact ⟨buildReasoningChain_total_length tid ts,
    buildReasoningChain_spec tid ts⟩

/-- Witness for the amended C3: on the concrete 9-link chain the
truncation branch applies and the retained head entry is flagged. -/
theorem c3_chain_amended_witness :
    ((buildReasoningChain "t8" (mkChain 9)).chain.head?.map
      (fun e => e.truncated)) = some true := by
  obtain ⟨e, rest, hchain, htrunc, -⟩ :=
    (c3_chain_amended.1 "t8" (mkChain 9)).2.2.2 (by decide)
  rw [hchain]
  simp [htrunc]

/-! ## Search and ranking (index.js: calculateRelevanceScore,
search_in_session) -/

/-- Whitespace for the query-word split `split(/\s+/)`. -/
def isWs (c : Char) : Bool :=
  c = ' ' ∨ c = '\t' ∨ c = '\n' ∨ c = '\r'

/-- `split(/\s+/)` on a character list: split at each maximal
whitespace run (JavaScript semantics: leading/trailing runs produce
empty fragments).  `skip` records whether the previous character
belonged to the separator run just consumed. -/
def splitWsAux (skip : Bool) (acc : List Char) :
    List Char → List (List Char)
  | [] => [acc.reverse]
  | c :: rest =>
    if isWs c then
      if skip then splitWsAux true acc rest
      else acc.reverse :: splitWsAux true [] rest
    else splitWsAux false (c :: acc) rest

/-- JavaScript `toLowerCase` (ASCII range), character by character.
(`String.toLower` itself is bypassed because its byte-level recursion
does not reduce in the kernel.) -/
def strToLower (s : String) : String :=
  String.mk (s.data.map Char.toLower)

/-- JavaScript `str.includes(needle)`: substring containment. -/
def containsSub (needle : List Char) : List Char → Bool
  | [] => needle.isEmpty
  | c :: rest => needle.isPrefixOf (c :: rest) || containsSub needle rest

/-- String-level `includes`. -/
def strIncludes (hay needle : String) : Bool :=
  containsSub needle.data hay.data

/-- The filter predicate of `search_in_session`: content, any tag, or
mode contains the lower-cased query (the source guards `t.mode &&` —
an empty mode string is falsy). -/
def matchPred (queryLower : String) (t : Thought) : Bool :=
  strIncludes (strToLower t.content) queryLower
    || t.tags.any (fun tag => strIncludes (strToLower tag) queryLower)
    || (t.mode ≠ "" && strIncludes (strToLower t.mode) queryLower)

/-- `calculateRelevanceScore` from index.js: +10 for a full-query
content match, +2 per query word found in content, +5 per tag
containing the query, +3 for a mode match, +1 for participating in any
relationship. -/
def calculateRelevanceScore (t : Thought) (queryLower : String) : Nat :=
  let content := strToLower t.content
  (if strIncludes content queryLower then 10 else 0)
    + 2 * ((splitWsAux false [] queryLower.data).filter
        (fun w => containsSub w content.data)).length
    + 5 * ((t.tags.filter
        (fun tag => strIncludes (strToLower tag) queryLower))).length
    + (if t.mode ≠ "" ∧ strIncludes (strToLower t.mode) queryLower = true
        then 3 else 0)
    + (if optTruthy t.relates_to ∨ optTruthy t.relationship_type
        then 1 else 0)

/-- One per-thought record of a `search_in_session` result page. -/
structure SearchResult where
  id : String
  content_preview : String
  mode : String
  tags : List String
  timestamp : Nat
  relates_to : Option String
  relationship_type : Option String
  relevance_score : Nat
deriving DecidableEq

/-- The `.map` step of `search_in_session`. -/
def toSearchResult (queryLower : String) (t : Thought) : SearchResult :=
  { id := t.id, content_preview := contentPreview 150 t.content,
    mode := t.mode, tags := t.tags, timestamp := t.timestamp,
    relates_to := t.relates_to, relationship_type := t.relationship_type,
    relevance_score := calculateRelevanceScore t queryLower }

/-- Stable insertion for the descending sort: an element is placed
before the first earlier-inserted element with score ≤ its own, so
elements inserted later (appearing later in append order) stay after
equal-scored earlier ones.  This computes exactly the output of the
source's stable `sort((a, b) => b.relevance_score -
a.relevance_score)`. -/
def insertDesc (x : SearchResult) : List SearchResult → List SearchResult
  | [] => [x]
  | y :: ys =>
    if y.relevance_score ≤ x.relevance_score then x :: y :: ys
    else y :: insertDesc x ys

/-- Stable descending sort by `relevance_score`. -/
def sortDesc : List SearchResult → List SearchResult
  | [] => []
  | x :: xs => insertDesc x (sortDesc xs)

/-- Response of a successful `search_in_session` call: the paginated
result page together with the reported `count` field (the source sets
`count: searchResults.length` after the slice). -/
structure SearchResp where
  results : List SearchResult
  count : Nat
deriving DecidableEq

/-- The pure core of `search_in_session` on an already-loaded nonempty
thought list: filter, map, sort descending by score, slice
`(offset, offset + limit)`, and report `count` as the page length. -/
def searchCore (thoughts : List Thought) (query : String)
    (limit offset : Nat) : SearchResp :=
  let ql := strToLower query
  let sorted :=
    sortDesc ((thoughts.filter (matchPred ql)).map (toSearchResult ql))
  let page := (sorted.drop offset).take limit
  { results := page, count := page.length }

/-! ## The think tool (index.js: think handler) -/

/-- Error payloads the `think` handler can return (each is serialized
as a JSON `error` object by the source). -/
inductive ThinkErr where
  | invalidName
  | selfReference
  | targetNotFound (thought_id : String)
  | futureReference
deriving DecidableEq

deriving instance DecidableEq for Except

/-- The fresh thought object built by the handler before link
handling. -/
def newThought (reasoning : String) (mode : Option String)
    (tags : Option (List String)) (thoughtId : String) (ts : Nat) : Thought :=
  { id := thoughtId, content := reasoning, mode := mode.getD "linear",
    tags := tags.getD [], timestamp := ts, relates_to := none,
    relationship_type := none, relationships_in := [],
    relationships_out := [] }

/-- `referencedThought.relationships_in.push(...)`: append the inbound
entry on the first thought whose id matches the target (the source
mutates the object returned by `thoughts.find`). -/
def addInbound (targetId : String) (e : RelEntry) :
    List Thought → List Thought
  | [] => []
  | t :: rest =>
    if t.id = targetId then
      { t with relationships_in := t.relationships_in ++ [e] } :: rest
    else t :: addInbound targetId e rest

/-- The pure core of the `think` handler on an already-loaded thought
list: link validation (only when both `relates_to` and
`relationship_type` are truthy), graph augmentation, and append.  The
generated id and timestamp are parameters (the source derives them
from the clock and a random suffix). -/
def thinkCore (thoughts : List Thought) (reasoning : String)
    (mode : Option String) (tags : Option (List String))
    (relates_to relationship_type : Option String)
    (thoughtId : String) (ts : Nat) : Except ThinkErr (List Thought) :=
  if optTruthy relates_to && optTruthy relationship_type then
    if relates_to.getD "" = thoughtId then .error .selfReference
    else
      match thoughts.find? (fun t => t.id == relates_to.getD "") with
      | none => .error (.targetNotFound (relates_to.getD ""))
      | some ref =>
        if ts < ref.timestamp then .error .futureReference
        else
          .ok (addInbound (relates_to.getD "")
              { thought_id := thoughtId,
                relationship_type := relationship_type.getD "" } thoughts ++
            [{ newThought reasoning mode tags thoughtId ts with
                relates_to := some (relates_to.getD "")
                relationship_type := some (relationship_type.getD "")
                relationships_out :=
                  [{ thought_id := relates_to.getD "",
                     relationship_type := relationship_type.getD "" }] }])
  else .ok (thoughts ++ [newThought reasoning mode tags thoughtId ts])

/-- Session states reachable from the empty session by successful
`think` appends.  The generated thought id is modelled as an arbitrary
id fresh for the session (the source builds it from `Date.now()` plus
a random suffix; the spec records ids as unique). -/
inductive Reachable : List Thought → Prop where
  | nil : Reachable []
  | step (ts : List Thought) (reasoning : String) (mode : Option String)
      (tags : Option (List String)) (rto rel : Option String)
      (tid : String) (tstamp : Nat) (ts' : List Thought) :
      Reachable ts → tid ∉ ts.map Thought.id →
      thinkCore ts reasoning mode tags rto rel tid tstamp = .ok ts' →
      Reachable ts'

/-! ## The file store and the session-level operations -/

/-- Content of one stored session file: a parseable JSON thought list,
or anything that makes `fs.readFile`/`JSON.parse` fail. -/
inductive SFile where
  | good (thoughts : List Thought)
  | corrupt
deriving DecidableEq

/-- The session directory: an association list from file name to file
content (first binding wins). -/
abbrev Store := List (String × SFile)

/-- Look up a file by name. -/
def lookupFile (store : Store) (k : String) : Option SFile :=
  (store.find? (fun p => p.1 == k)).map Prod.snd

/-- `fs.unlink`: remove a file. -/
def removeFile (store : Store) (k : String) : Store :=
  store.filter (fun p => !(p.1 == k))

/-- Write (create or overwrite) a file.  The store is observed only
through `lookupFile`, so the binding is placed in front after removing
any previous binding for the same name. -/
def setFile (store : Store) (k : String) (f : SFile) : Store :=
  (k, f) :: removeFile store k

/-- The file name the store uses for a session. -/
def sessionKey (name : String) : String :=
  sanitizeSessionName name ++ ".json"

/-- `loadSession` from index.js: read and parse the session file,
returning the empty list on ANY failure (absence, unreadable file, or
parse error) — the `catch` clause returns `[]`. -/
def loadSession (store : Store) (name : String) : List Thought :=
  match lookupFile store (sessionKey name) with
  | some (SFile.good ts) => ts
  | _ => []

/-- `saveSession` from index.js: serialize and overwrite the session
file. -/
def saveSession (store : Store) (name : String) (ts : List Thought) :
    Store :=
  setFile store (sessionKey name) (SFile.good ts)

/-- The `delete_session` tool: validate the name, `fs.unlink` the file;
an absent file makes `unlink` throw, which the `catch` turns into an
error payload (`false` here; `true` is the success payload). -/
def delete_session (store : Store) (name : String) : Store × Bool :=
  if validateSessionName name then
    match lookupFile store (sessionKey name) with
    | some _ => (removeFile store (sessionKey name), true)
    | none => (store, false)
  else (store, false)

/-- Result payload of the `rename_session` tool. -/
inductive RenameRes where
  | ok (thoughtCount : Nat)
  | errInvalid
  | errNotFound
  | errUnlink
deriving DecidableEq

/-- The `rename_session` tool: validate both names, load the old
session (`errNotFound` when it loads empty), save under the new name
(overwriting any existing destination without a check), then unlink
the old file. -/
def rename_session (store : Store) (oldName newName : String) :
    Store × RenameRes :=
  if validateSessionName oldName = false ∨
      validateSessionName newName = false then (store, .errInvalid)
  else if (loadSession store oldName).length = 0 then (store, .errNotFound)
  else
    match lookupFile (saveSession store newName (loadSession store oldName))
        (sessionKey oldName) with
    | some _ =>
      (removeFile (saveSession store newName (loadSession store oldName))
        (sessionKey oldName),
       .ok (loadSession store oldName).length)
    | none =>
      (saveSession store newName (loadSession store oldName), .errUnlink)

/-- Outcome of the `search_in_session` tool. -/
inductive SearchOut where
  | errInvalidName
  | errNotFoundOrEmpty
  | ok (resp : SearchResp)
deriving DecidableEq

/-- The `search_in_session` tool: validate the name, load the session,
report `Session not found or empty` when the loaded list is empty, and
otherwise run the filter/score/sort/slice pipeline. -/
def search_in_session (store : Store) (name query : String)
    (limit offset : Nat) : SearchOut :=
  if validateSessionName name then
    let thoughts := loadSession store name
    if thoughts.length = 0 then .errNotFoundOrEmpty
    else .ok (searchCore thoughts query limit offset)
  else .errInvalidName

/-- The `think` tool at store level: validate the (supplied) session
name, load, run the core append, and save only on success (each error
path returns before `saveSession`). -/
def thinkOp (store : Store) (name : String) (reasoning : String)
    (mode : Option String) (tags : Option (List String))
    (relates_to relationship_type : Option String)
    (thoughtId : String) (ts : Nat) : Store × Option ThinkErr :=
  if validateSessionName name then
    match thinkCore (loadSession store name) reasoning mode tags
        relates_to relationship_type thoughtId ts with
    | .ok ts' => (saveSession store name ts', none)
    | .error e => (store, some e)
  else (store, some .invalidName)

/-! ### Search lemmas (C2, C6) -/

theorem length_insertDesc (x : SearchResult) (l : List SearchResult) :
    (insertDesc x l).length = l.length + 1 := by
  induction l with
  | nil => rfl
  | cons y ys ih =>
    rw [insertDesc]
    by_cases h : y.relevance_score ≤ x.relevance_score
    · simp [h]
    · simp [h, ih]

theorem length_sortDesc (l : List SearchResult) :
    (sortDesc l).length = l.length := by
  induction l with
  | nil => rfl
  | cons x xs ih => rw [sortDesc, length_insertDesc, ih, List.length_cons]

theorem mem_insertDesc {a x : SearchResult} {l : List SearchResult} :
    a ∈ insertDesc x l ↔ a = x ∨ a ∈ l := by
  induction l with
  | nil => simp [insertDesc]
  | cons y ys ih =>
    rw [insertDesc]
    by_cases h : y.relevance_score ≤ x.relevance_score
    · simp [if_pos h, List.mem_cons]
    · simp only [if_neg h, List.mem_cons, ih]
      tauto

theorem pairwise_insertDesc (x : SearchResult) (l : List SearchResult)
    (h : l.Pairwise (fun a b => b.relevance_score ≤ a.relevance_score)) :
    (insertDesc x l).Pairwise
      (fun a b => b.relevance_score ≤ a.relevance_score) := by
  induction l with
  | nil => simp [insertDesc]
  | cons y ys ih =>
    rw [List.pairwise_cons] at h
    rw [insertDesc]
    by_cases hyx : y.relevance_score ≤ x.relevance_score
    · rw [if_pos hyx]
      refine List.pairwise_cons.mpr ⟨?_, List.pairwise_cons.mpr h⟩
      intro b hb
      rcases List.mem_cons.mp hb with rfl | hbys
      · exact hyx
      · exact Nat.le_trans (h.1 b hbys) hyx
    · rw [if_neg hyx]
      refine List.pairwise_cons.mpr ⟨?_, ih h.2⟩
      intro b hb
      rcases mem_insertDesc.mp hb with rfl | hbys
      · omega
      · exact h.1 b hbys

theorem pairwise_sortDesc (l : List SearchResult) :
    (sortDesc l).Pairwise
      (fun a b => b.relevance_score ≤ a.relevance_score) := by
  induction l with
  | nil => exact List.Pairwise.nil
  | cons x xs ih => exact pairwise_insertDesc x (sortDesc xs) ih

theorem filter_insertDesc (x : SearchResult) (l : List SearchResult)
    (s : Nat) :
    (insertDesc x l).filter (fun r => r.relevance_score = s) =
      if x.relevance_score = s
      then x :: l.filter (fun r => r.relevance_score = s)
      else l.filter (fun r => r.relevance_score = s) := by
  induction l with
  | nil =>
    rw [insertDesc]
    by_cases hx : x.relevance_score = s
    · simp [hx]
    · simp [hx]
  | cons y ys ih =>
    rw [insertDesc]
    by_cases hyx : y.relevance_score ≤ x.relevance_score
    · rw [if_pos hyx]
      by_cases hx : x.relevance_score = s
      · simp [List.filter_cons, hx]
      · simp [List.filter_cons, hx]
    · rw [if_neg hyx]
      by_cases hx : x.relevance_score = s
      · have hy : ¬(y.relevance_score = s) := by omega
        simp [List.filter_cons, hx, hy, ih]
      · by_cases hy : y.relevance_score = s
        · simp [List.filter_cons, hx, hy, ih]
        · simp [List.filter_cons, hx, hy, ih]

theorem filter_sortDesc (l : List SearchResult) (s : Nat) :
    (sortDesc l).filter (fun r => r.relevance_score = s) =
      l.filter (fun r => r.relevance_score = s) := by
  induction l with
  | nil => rfl
  | cons x xs ih =>
    rw [sortDesc, filter_insertDesc]
    by_cases hx : x.relevance_score = s
    · simp [List.filter_cons, hx, ih]
    · simp [List.filter_cons, hx, ih]

theorem searchCore_count (thoughts : List Thought) (query : String)
    (limit offset : Nat) :
    (searchCore thoughts query limit offset).count =
      min limit
        ((thoughts.filter (matchPred (strToLower query))).length - offset) := by
  unfold searchCore
  simp only [List.length_take, List.length_drop, length_sortDesc,
    List.length_map]

/-- Helper projection for stating counterexamples about the reported
`count` of a `search_in_session` outcome. -/
def searchOutCount : SearchOut → Option Nat
  | .ok r => some r.count
  | _ => none

/-- A minimal thought whose content is the single character `x` — used
as concrete data for the search claims. -/
def xThought (i : Nat) : Thought :=
  { id := "t" ++ toString i, content := "x", mode := "linear", tags := [],
    timestamp := i, relates_to := none, relationship_type := none,
    relationships_in := [], relationships_out := [] }

/-- A store holding one session `a:b:c` with two thoughts both
matching the query `x`. -/
def c2store : Store :=
  [(sessionKey "a:b:c", SFile.good [xThought 0, xThought 1])]

/-- C2: the claim that `count` reports the total number of filtered
matches independently of the page size fails: with two matching
thoughts and `limit = 1`, the source sets `count:
searchResults.length` after the slice, so `count = 1` while the filter
matches 2 thoughts. -/
theorem c2_counterexample :
    searchOutCount (search_in_session c2store "a:b:c" "x" 1 0) = some 1 ∧
    ((loadSession c2store "a:b:c").filter
      (matchPred (strToLower "x"))).length = 2 := by
  decide

/-- C2 (amended): the `count` field returned by `search_in_session`
equals the length of the returned page — `min limit (matches −
offset)` over the number `matches` of thoughts passing the match
filter — not the total number of matches; the full filtered count is
not reported separately. -/
theorem c2_count_amended (store : Store) (name query : String)
    (limit offset : Nat) (resp : SearchResp)
    (h : search_in_session store name query limit offset = .ok resp) :
    resp.count = min limit
      (((loadSession store name).filter
          (matchPred (strToLower query))).length - offset) := by
  unfold search_in_session at h
  by_cases hv : validateSessionName name = true
  · rw [if_pos hv] at h
    by_cases hz : (loadSession store name).length = 0
    · rw [if_pos hz] at h
      cases h
    · rw [if_neg hz] at h
      injection h with h
      rw [← h, searchCore_count]
  · rw [if_neg hv] at h
    cases h

/-- Witness for the amended C2: on the concrete two-match store with
`limit = 1` the reported count is `min 1 (2 − 0) = 1`. -/
theorem c2_count_amended_witness :
    { results := [toSearchResult "x" (xThought 0)], count := 1 : SearchResp }.count =
      min 1 (((loadSession c2store "a:b:c").filter
        (matchPred (strToLower "x"))).length - 0) :=
  c2_count_amended c2store "a:b:c" "x" 1 0
    { results := [toSearchResult "x" (xThought 0)], count := 1 } (by decide)

/-- C6: `search_in_session` results are ordered by non-increasing
`relevance_score`, and the sort is stable: for every score value, the
results carrying that score appear in the same relative order as in
the stored (append-order) thought list.  The returned page is a
contiguous slice of the sorted list, so both properties transfer to
it. -/
theorem c6_sorted_stable (thoughts : List Thought) (query : String)
    (limit offset : Nat) :
    (searchCore thoughts query limit offset).results.Pairwise
      (fun a b => b.relevance_score ≤ a.relevance_score) ∧
    ∀ s : Nat,
      (sortDesc ((thoughts.filter (matchPred (strToLower query))).map
        (toSearchResult (strToLower query)))).filter
          (fun r => r.relevance_score = s) =
      ((thoughts.filter (matchPred (strToLower query))).map
        (toSearchResult (strToLower query))).filter
          (fun r => r.relevance_score = s) := by
  constructor
  · have hsub : (searchCore thoughts query limit offset).results.Sublist
        (sortDesc ((thoughts.filter (matchPred (strToLower query))).map
          (toSearchResult (strToLower query)))) := by
      unfold searchCore
      exact (List.take_sublist _ _).trans (List.drop_sublist _ _)
    exact (pairwise_sortDesc _).sublist hsub
  · intro s
    exact filter_sortDesc _ s

/-! ### Think-tool link validation (C4, C8) -/

/-- C4: the original claim fails because link validation only runs
when BOTH `relates_to` and `relationship_type` are truthy: supplying a
nonexistent `relates_to` with no `relationship_type` does not fail —
the append succeeds and the session changes. -/
theorem c4_counterexample :
    (thinkOp [] "a:b:c" "r" none none (some "missing") none "t1" 0).2 =
      none ∧
    loadSession
      (thinkOp [] "a:b:c" "r" none none (some "missing") none "t1" 0).1
      "a:b:c" = [newThought "r" none none "t1" 0] := by
  decide

/-- C4 (amended): for every `think` append that supplies BOTH a truthy
`relates_to` and a truthy `relationship_type`, where `relates_to` is
not the new thought's own id and no thought in the session carries
that id, the operation fails with the `Referenced thought not found`
payload and the persisted store is unchanged. -/
theorem c4_target_not_found_amended (store : Store)
    (name reasoning : String) (mode : Option String)
    (tags : Option (List String)) (rto rel : Option String)
    (tid : String) (ts : Nat)
    (hname : validateSessionName name = true)
    (hrt : optTruthy rto = true) (hrel : optTruthy rel = true)
    (hne : rto.getD "" ≠ tid)
    (habs : ∀ t ∈ loadSession store name, t.id ≠ rto.getD "") :
    thinkOp store name reasoning mode tags rto rel tid ts =
      (store, some (.targetNotFound (rto.getD ""))) := by
  have hfind : (loadSession store name).find?
      (fun t => t.id == rto.getD "") = none := by
    rw [List.find?_eq_none]
    intro t ht
    simp only [beq_iff_eq]
    exact habs t ht
  unfold thinkOp
  rw [if_pos hname]
  unfold thinkCore
  rw [hrt, hrel]
  simp only [Bool.and_self, if_true]
  rw [if_neg hne, hfind]

/-- Witness for the amended C4 on the empty session. -/
theorem c4_target_not_found_amended_witness :
    thinkOp [] "a:b:c" "r" none none (some "missing") (some "builds_on")
      "t1" 0 = ([], some (.targetNotFound "missing")) :=
  c4_target_not_found_amended [] "a:b:c" "r" none none (some "missing")
    (some "builds_on") "t1" 0 (by decide) (by decide) (by decide)
    (by decide)
    (fun t ht => absurd ht
      (by rw [show loadSession [] "a:b:c" = [] from rfl]
          exact List.not_mem_nil t))

/-- C8: when exactly one of `relates_to` / `relationship_type` is
truthy, no link validation runs: the append always succeeds and the
stored thought has `relates_to = null`, `relationship_type = null` and
empty relationship lists — the supplied half-link is silently
dropped. -/
theorem c8_half_link_dropped (store : Store) (name reasoning : String)
    (mode : Option String) (tags : Option (List String))
    (rto rel : Option String) (tid : String) (ts : Nat)
    (hname : validateSessionName name = true)
    (h : (optTruthy rto = true ∧ optTruthy rel = false) ∨
      (optTruthy rto = false ∧ optTruthy rel = true)) :
    thinkOp store name reasoning mode tags rto rel tid ts =
      (saveSession store name
        (loadSession store name ++ [newThought reasoning mode tags tid ts]),
       none) ∧
    (newThought reasoning mode tags tid ts).relates_to = none ∧
    (newThought reasoning mode tags tid ts).relationship_type = none ∧
    (newThought reasoning mode tags tid ts).relationships_in = [] ∧
    (newThought reasoning mode tags tid ts).relationships_out = [] := by
  refine ⟨?_, rfl, rfl, rfl, rfl⟩
  unfold thinkOp
  rw [if_pos hname]
  have hcore : thinkCore (loadSession store name) reasoning mode tags
      rto rel tid ts =
      .ok (loadSession store name ++ [newThought reasoning mode tags tid ts]) := by
    unfold thinkCore
    rcases h with ⟨h1, h2⟩ | ⟨h1, h2⟩ <;> rw [h1, h2] <;> simp
  rw [hcore]

/-- Witness for C8: a dropped half-link on the empty session. -/
theorem c8_half_link_dropped_witness :
    thinkOp [] "a:b:c" "r" none none (some "missing") none "t1" 0 =
      (saveSession [] "a:b:c"
        (loadSession [] "a:b:c" ++ [newThought "r" none none "t1" 0]),
       none) :=
  (c8_half_link_dropped [] "a:b:c" "r" none none (some "missing") none
    "t1" 0 (by decide) (Or.inl ⟨by decide, by decide⟩)).1

/-! ### Read/delete asymmetry (C7) -/

/-- C7: absence on read is not an error — `loadSession` returns the
empty list — while `delete_session` on the same absent session returns
an error payload (`false`) and leaves the store unchanged; this holds
for every session name. -/
theorem c7_read_delete_asymmetry (store : Store) (name : String)
    (habs : lookupFile store (sessionKey name) = none) :
    loadSession store name = [] ∧
    delete_session store name = (store, false) := by
  constructor
  · unfold loadSession
    rw [habs]
  · unfold delete_session
    by_cases hv : validateSessionName name = true
    · rw [if_pos hv, habs]
    · rw [if_neg hv]

/-- Witness for C7 on the empty store. -/
theorem c7_read_delete_asymmetry_witness :
    loadSession [] "a:b:c" = [] ∧ delete_session [] "a:b:c" = ([], false) :=
  c7_read_delete_asymmetry [] "a:b:c" (by decide)

/-! ### Store lemmas (C9, C10) -/

theorem find?_filter_of_imp (l : Store) (q r : String × SFile → Bool)
    (h : ∀ p, q p = true → r p = true) : (l.filter r).find? q = l.find? q := by
  induction l with
  | nil => rfl
  | cons p rest ih =>
    rw [List.filter_cons]
    cases hq : q p with
    | true =>
      rw [h p hq]
      simp only [if_true, List.find?_cons, hq]
    | false =>
      cases hr : r p with
      | true =>
        simp only [if_true, List.find?_cons, hq, ih]
      | false =>
        simp only [Bool.false_eq_true, if_false, List.find?_cons, hq, ih]

theorem lookupFile_setFile_self (store : Store) (k : String) (f : SFile) :
    lookupFile (setFile store k f) k = some f := by
  unfold lookupFile setFile
  rw [List.find?_cons_of_pos _ (by simp)]
  rfl

theorem lookupFile_setFile_ne (store : Store) {k k' : String} (f : SFile)
    (hk : k' ≠ k) :
    lookupFile (setFile store k f) k' = lookupFile store k' := by
  unfold lookupFile setFile removeFile
  rw [List.find?_cons_of_neg _
    (by simp only [beq_iff_eq]; exact Ne.symm hk)]
  rw [find?_filter_of_imp]
  intro p hp
  simp only [beq_iff_eq] at hp
  simp [hp, hk]

theorem lookupFile_removeFile_self (store : Store) (k : String) :
    lookupFile (removeFile store k) k = none := by
  unfold lookupFile removeFile
  rw [List.find?_eq_none.mpr]
  · rfl
  · intro p hp
    have := (List.mem_filter.mp hp).2
    simp only [Bool.not_eq_true', beq_eq_false_iff_ne, ne_eq] at this
    simp [this]

theorem lookupFile_removeFile_ne (store : Store) {k k' : String}
    (hk : k' ≠ k) :
    lookupFile (removeFile store k) k' = lookupFile store k' := by
  unfold lookupFile removeFile
  rw [find?_filter_of_imp]
  intro p hp
  simp only [beq_iff_eq] at hp
  simp [hp, hk]

theorem loadSession_eq_of_lookup {store : Store} {ts : List Thought}
    {name : String}
    (h : lookupFile store (sessionKey name) = some (SFile.good ts)) :
    loadSession store name = ts := by
  unfold loadSession
  rw [h]

theorem loadSession_lookup (store : Store) (name : String)
    (h : loadSession store name ≠ []) :
    lookupFile store (sessionKey name) =
      some (SFile.good (loadSession store name)) := by
  cases hl : lookupFile store (sessionKey name) with
  | none =>
    exfalso
    apply h
    unfold loadSession
    rw [hl]
  | some f =>
    cases f with
    | corrupt =>
      exfalso
      apply h
      unfold loadSession
      rw [hl]
    | good ts =>
      have he : loadSession store name = ts := by
        unfold loadSession
        rw [hl]
      rw [he]

/-! ### Rename semantics (C9) -/

/-- A store holding one non-empty session `a:b:c`. -/
def c9store : Store := [(sessionKey "a:b:c", SFile.good [xThought 0])]

/-- C9: the claim fails as universally stated.  First, when the source
session is absent, `rename_session` reports `Session not found` even
though a non-empty session exists under the destination.  Second, when
old and new name coincide, the operation reports success but the
session file ends up deleted, not replaced. -/
theorem c9_counterexample :
    rename_session c9store "x:y:z" "a:b:c" = (c9store, .errNotFound) ∧
    (rename_session c9store "a:b:c" "a:b:c").2 = .ok 1 ∧
    lookupFile (rename_session c9store "a:b:c" "a:b:c").1
      (sessionKey "a:b:c") = none := by
  decide

/-- C9 (amended): whenever the source session is non-empty and the two
names map to distinct storage keys, `rename_session` onto an existing
non-empty destination reports success with the source's thought count,
silently replaces the destination's persisted thought list with the
source's thoughts (the destination's previous thoughts are lost, with
no error or warning), and removes the source file. -/
theorem c9_rename_overwrites_amended (store : Store)
    (oldName newName : String)
    (hov : validateSessionName oldName = true)
    (hnv : validateSessionName newName = true)
    (hkeys : sessionKey oldName ≠ sessionKey newName)
    (hsrc : loadSession store oldName ≠ [])
    (_hdst : loadSession store newName ≠ []) :
    (rename_session store oldName newName).2 =
      .ok (loadSession store oldName).length ∧
    loadSession (rename_session store oldName newName).1 newName =
      loadSession store oldName ∧
    lookupFile (rename_session store oldName newName).1
      (sessionKey oldName) = none := by
  have hlen : ¬((loadSession store oldName).length = 0) := by
    intro h0
    exact hsrc (List.length_eq_zero.mp h0)
  have hcond : ¬(validateSessionName oldName = false ∨
      validateSessionName newName = false) := by
    rw [hov, hnv]
    simp
  have hold1 : lookupFile
      (saveSession store newName (loadSession store oldName))
      (sessionKey oldName) = lookupFile store (sessionKey oldName) :=
    lookupFile_setFile_ne store _ hkeys
  have hold2 : lookupFile store (sessionKey oldName) =
      some (SFile.good (loadSession store oldName)) :=
    loadSession_lookup store oldName hsrc
  unfold rename_session
  rw [if_neg hcond, if_neg hlen, hold1, hold2]
  refine ⟨rfl, ?_, ?_⟩
  · apply loadSession_eq_of_lookup
    rw [lookupFile_removeFile_ne _ (Ne.symm hkeys)]
    exact lookupFile_setFile_self store _ _
  · exact lookupFile_removeFile_self _ _

/-- A store holding non-empty sessions under `a:b:c` and `d:e:f`. -/
def c9wstore : Store :=
  [(sessionKey "a:b:c", SFile.good [xThought 0]),
   (sessionKey "d:e:f", SFile.good [xThought 1])]

/-- Witness for the amended C9: renaming `a:b:c` onto the existing
non-empty `d:e:f` succeeds, overwrites it, and removes the source. -/
theorem c9_rename_overwrites_amended_witness :
    (rename_session c9wstore "a:b:c" "d:e:f").2 =
      .ok (loadSession c9wstore "a:b:c").length ∧
    loadSession (rename_session c9wstore "a:b:c" "d:e:f").1 "d:e:f" =
      loadSession c9wstore "a:b:c" ∧
    lookupFile (rename_session c9wstore "a:b:c" "d:e:f").1
      (sessionKey "a:b:c") = none :=
  c9_rename_overwrites_amended c9wstore "a:b:c" "d:e:f" (by decide)
    (by decide) (by decide) (by decide) (by decide)

/-! ### Corrupt files on the read path (C10) -/

/-- C10: `loadSession` returns the empty list on every read failure,
not only absence: a session whose file is unreadable or corrupt is
indistinguishable on the read path from one that does not exist —
`search_in_session` answers exactly as on the store with the file
removed (reporting `Session not found or empty` for a valid name), and
`rename_session` likewise (reporting `Session not found`); no storage
failure propagates from a read. -/
theorem c10_corrupt_indistinguishable (store : Store) (name : String)
    (hc : lookupFile store (sessionKey name) = some SFile.corrupt) :
    loadSession store name = [] ∧
    (∀ query limit offset,
      search_in_session store name query limit offset =
      search_in_session (removeFile store (sessionKey name)) name
        query limit offset) ∧
    (∀ query limit offset, validateSessionName name = true →
      search_in_session store name query limit offset =
        .errNotFoundOrEmpty) ∧
    (∀ newName, (rename_session store name newName).2 =
      (rename_session (removeFile store (sessionKey name)) name newName).2) ∧
    (∀ newName, validateSessionName name = true →
      validateSessionName newName = true →
      (rename_session store name newName).2 = .errNotFound) := by
  have h1 : loadSession store name = [] := by
    unfold loadSession
    rw [hc]
  have h2 : loadSession (removeFile store (sessionKey name)) name = [] := by
    unfold loadSession
    rw [lookupFile_removeFile_self]
  refine ⟨h1, ?_, ?_, ?_, ?_⟩
  · intro query limit offset
    unfold search_in_session
    rw [h1, h2]
  · intro query limit offset hv
    unfold search_in_session
    rw [if_pos hv, h1]
    rfl
  · intro newName
    unfold rename_session
    by_cases hval : validateSessionName name = false ∨
        validateSessionName newName = false
    · rw [if_pos hval, if_pos hval]
    · rw [if_neg hval, if_neg hval, h1, h2]
      rfl
  · intro newName hnm hnew
    unfold rename_session
    have hcond : ¬(validateSessionName name = false ∨
        validateSessionName newName = false) := by
      rw [hnm, hnew]
      simp
    rw [if_neg hcond, h1]
    rfl

/-- A store whose only session file for `a:b:c` is corrupt. -/
def c10store : Store := [(sessionKey "a:b:c", SFile.corrupt)]

/-- Witness for C10 on a concrete corrupt store. -/
theorem c10_corrupt_indistinguishable_witness :
    loadSession c10store "a:b:c" = [] ∧
    search_in_session c10store "a:b:c" "q" 10 0 = .errNotFoundOrEmpty ∧
    (rename_session c10store "a:b:c" "d:e:f").2 = .errNotFound := by
  have h := c10_corrupt_indistinguishable c10store "a:b:c" (by decide)
  exact ⟨h.1, h.2.2.1 "q" 10 0 (by decide),
    h.2.2.2.2 "d:e:f" (by decide) (by decide)⟩

/-! ### Relationship consistency invariant (C5) -/

/-- The id column of a session. -/
def idsOf (ts : List Thought) : List String := ts.map Thought.id

/-- Mutual in/out consistency: thought `B` records an inbound entry
`{A, T}` exactly when `A` records the outbound entry `{B, T}`. -/
def Consistent (ts : List Thought) : Prop :=
  ∀ A ∈ ts, ∀ B ∈ ts, ∀ T : String,
    (({ thought_id := A.id, relationship_type := T } : RelEntry) ∈
        B.relationships_in ↔
     ({ thought_id := B.id, relationship_type := T } : RelEntry) ∈
        A.relationships_out)

/-- The inductive session invariant: distinct ids, all recorded edges
point at present ids, and in/out lists are mutually consistent. -/
def Inv (ts : List Thought) : Prop :=
  (idsOf ts).Nodup ∧
  (∀ A ∈ ts, ∀ e ∈ A.relationships_out, e.thought_id ∈ idsOf ts) ∧
  (∀ B ∈ ts, ∀ e ∈ B.relationships_in, e.thought_id ∈ idsOf ts) ∧
  Consistent ts

/-- The in-place update `addInbound` performs on the matching
thought. -/
def updFn (rt : String) (e : RelEntry) (t : Thought) : Thought :=
  if t.id = rt then
    { t with relationships_in := t.relationships_in ++ [e] }
  else t

theorem updFn_id (rt : String) (e : RelEntry) (t : Thought) :
    (updFn rt e t).id = t.id := by
  unfold updFn
  split <;> rfl

theorem updFn_out (rt : String) (e : RelEntry) (t : Thought) :
    (updFn rt e t).relationships_out = t.relationships_out := by
  unfold updFn
  split <;> rfl

theorem updFn_in (rt : String) (e : RelEntry) (t : Thought) :
    (updFn rt e t).relationships_in =
      if t.id = rt then t.relationships_in ++ [e]
      else t.relationships_in := by
  unfold updFn
  split <;> simp_all

theorem map_updFn_eq_self (rt : String) (e : RelEntry) (l : List Thought)
    (h : rt ∉ idsOf l) : l.map (updFn rt e) = l := by
  induction l with
  | nil => rfl
  | cons t rest ih =>
    have ht : t.id ≠ rt := fun he =>
      h (he ▸ List.mem_map_of_mem Thought.id (List.mem_cons_self t rest))
    have h2 : rt ∉ idsOf rest := fun hm => h (List.mem_cons_of_mem _ hm)
    have hu : updFn rt e t = t := by
      unfold updFn
      rw [if_neg ht]
    rw [List.map_cons, ih h2, hu]

theorem addInbound_eq_map (rt : String) (e : RelEntry) (l : List Thought)
    (h : (idsOf l).Nodup) : addInbound rt e l = l.map (updFn rt e) := by
  induction l with
  | nil => rfl
  | cons t rest ih =>
    have h' : (idsOf rest).Nodup ∧ t.id ∉ idsOf rest := by
      have := List.nodup_cons.mp h
      exact ⟨this.2, this.1⟩
    rw [addInbound, List.map_cons]
    by_cases ht : t.id = rt
    · rw [if_pos ht]
      rw [show updFn rt e t =
          { t with relationships_in := t.relationships_in ++ [e] } from by
        unfold updFn; rw [if_pos ht]]
      rw [map_updFn_eq_self rt e rest (ht ▸ h'.2)]
    · rw [if_neg ht]
      rw [show updFn rt e t = t from by unfold updFn; rw [if_neg ht]]
      rw [ih h'.1]

theorem idsOf_append (l₁ l₂ : List Thought) :
    idsOf (l₁ ++ l₂) = idsOf l₁ ++ idsOf l₂ := by
  unfold idsOf
  exact List.map_append _ _ _

theorem idsOf_map_updFn (rt : String) (e : RelEntry) (l : List Thought) :
    idsOf (l.map (updFn rt e)) = idsOf l := by
  unfold idsOf
  rw [List.map_map]
  exact List.map_congr_left (fun t _ => updFn_id rt e t)

theorem nodup_append_fresh {ids : List String} {a : String}
    (h : ids.Nodup) (ha : a ∉ ids) : (ids ++ [a]).Nodup := by
  rw [List.nodup_append]
  refine ⟨h, List.nodup_singleton a, ?_⟩
  intro x hx hxa
  rw [List.mem_singleton] at hxa
  exact ha (hxa ▸ hx)

theorem mem_append_one {α : Type} {x a : α} {l : List α} :
    x ∈ l ++ [a] ↔ x ∈ l ∨ x = a := by
  simp [List.mem_append]

/-- Inversion of a successful `thinkCore` run: either no link handling
happened (plain append), or a full link was installed on a found
target. -/
theorem thinkCore_ok_inv {ts ts' : List Thought} {reasoning : String}
    {mode : Option String} {tags : Option (List String)}
    {rto rel : Option String} {tid : String} {tstamp : Nat}
    (h : thinkCore ts reasoning mode tags rto rel tid tstamp = .ok ts') :
    ts' = ts ++ [newThought reasoning mode tags tid tstamp] ∨
    (∃ ref, ts.find? (fun t => t.id == rto.getD "") = some ref ∧
      rto.getD "" ≠ tid ∧ rto.getD "" ∈ idsOf ts ∧
      ts' = addInbound (rto.getD "")
          { thought_id := tid, relationship_type := rel.getD "" } ts ++
        [{ newThought reasoning mode tags tid tstamp with
            relates_to := some (rto.getD "")
            relationship_type := some (rel.getD "")
            relationships_out :=
              [{ thought_id := rto.getD "",
                 relationship_type := rel.getD "" }] }]) := by
  unfold thinkCore at h
  split at h
  · split at h
    · cases h
    · rename_i hs
      split at h
      · cases h
      · rename_i ref hf
        split at h
        · cases h
        · injection h with h
          have h1 : ref ∈ ts := List.mem_of_find?_eq_some hf
          have h2 := List.find?_some hf
          simp only [beq_iff_eq] at h2
          exact Or.inr ⟨ref, hf, hs,
            h2 ▸ List.mem_map_of_mem Thought.id h1, h.symm⟩
  · injection h with h
    exact Or.inl h.symm

/-- One successful `think` append with a fresh id preserves the
invariant. -/
theorem inv_step {ts ts' : List Thought} {reasoning : String}
    {mode : Option String} {tags : Option (List String)}
    {rto rel : Option String} {tid : String} {tstamp : Nat}
    (hInv : Inv ts) (hfresh : tid ∉ idsOf ts)
    (h : thinkCore ts reasoning mode tags rto rel tid tstamp = .ok ts') :
    Inv ts' := by
  obtain ⟨hnd, hout, hin, hcons⟩ := hInv
  rcases thinkCore_ok_inv h with hplain | ⟨ref, hfind, hne, hrtmem, hlink⟩
  · -- plain append of a thought with no relationships
    subst hplain
    set nt := newThought reasoning mode tags tid tstamp with hnt
    have hntid : nt.id = tid := rfl
    have hntin : nt.relationships_in = [] := rfl
    have hntout : nt.relationships_out = [] := rfl
    have hids : idsOf (ts ++ [nt]) = idsOf ts ++ [tid] := by
      rw [idsOf_append]
      rfl
    refine ⟨?_, ?_, ?_, ?_⟩
    · rw [hids]
      exact nodup_append_fresh hnd hfresh
    · intro A hA e he
      rw [hids]
      rcases mem_append_one.mp hA with hA | rfl
      · exact List.mem_append_left _ (hout A hA e he)
      · rw [hntout] at he
        cases he
    · intro B hB e he
      rw [hids]
      rcases mem_append_one.mp hB with hB | rfl
      · exact List.mem_append_left _ (hin B hB e he)
      · rw [hntin] at he
        cases he
    · intro A hA B hB T
      rcases mem_append_one.mp hB with hB | rfl
      · rcases mem_append_one.mp hA with hA | rfl
        · exact hcons A hA B hB T
        · rw [hntout]
          constructor
          · intro hmem
            have := hin B hB _ hmem
            rw [hntid] at this
            exact absurd this hfresh
          · intro hmem
            cases hmem
      · rw [hntin]
        constructor
        · intro hmem
          cases hmem
        · intro hmem
          rcases mem_append_one.mp hA with hA | rfl
          · have := hout A hA _ hmem
            rw [hntid] at this
            exact absurd this hfresh
          · rw [hntout] at hmem
            cases hmem
  · -- link installed on target `rt`
    set rt := rto.getD "" with hrt
    set relS := rel.getD "" with hrelS
    set ie : RelEntry := { thought_id := tid, relationship_type := relS }
      with hie
    set nt : Thought :=
      { newThought reasoning mode tags tid tstamp with
          relates_to := some rt
          relationship_type := some relS
          relationships_out :=
            [{ thought_id := rt, relationship_type := relS }] } with hntdef
    have hntid : nt.id = tid := rfl
    have hntin : nt.relationships_in = [] := rfl
    have hntout : nt.relationships_out =
      [{ thought_id := rt, relationship_type := relS }] := rfl
    rw [addInbound_eq_map rt ie ts hnd] at hlink
    subst hlink
    have hids : idsOf (ts.map (updFn rt ie) ++ [nt]) = idsOf ts ++ [tid] := by
      rw [idsOf_append, idsOf_map_updFn]
      rfl
    have hmemmap : ∀ {X : Thought}, X ∈ ts.map (updFn rt ie) →
        ∃ B ∈ ts, updFn rt ie B = X := by
      intro X hX
      exact List.mem_map.mp hX
    refine ⟨?_, ?_, ?_, ?_⟩
    · rw [hids]
      exact nodup_append_fresh hnd hfresh
    · intro A hA e he
      rw [hids]
      rcases mem_append_one.mp hA with hA | rfl
      · obtain ⟨B, hB, rfl⟩ := hmemmap hA
        rw [updFn_out] at he
        exact List.mem_append_left _ (hout B hB e he)
      · rw [hntout] at he
        rw [List.mem_singleton] at he
        subst he
        exact List.mem_append_left _ hrtmem
    · intro B hB e he
      rw [hids]
      rcases mem_append_one.mp hB with hB | rfl
      · obtain ⟨C, hC, rfl⟩ := hmemmap hB
        rw [updFn_in] at he
        by_cases hcid : C.id = rt
        · rw [if_pos hcid] at he
          rcases mem_append_one.mp he with he | rfl
          · exact List.mem_append_left _ (hin C hC e he)
          · exact List.mem_append_right _ (List.mem_singleton_self tid)
        · rw [if_neg hcid] at he
          exact List.mem_append_left _ (hin C hC e he)
      · rw [hntin] at he
        cases he
    · intro A' hA' B' hB' T
      rcases mem_append_one.mp hB' with hB' | rfl
      · obtain ⟨B, hB, rfl⟩ := hmemmap hB'
        rcases mem_append_one.mp hA' with hA' | rfl
        · -- both old (possibly updated)
          obtain ⟨A, hA, rfl⟩ := hmemmap hA'
          rw [updFn_id, updFn_id, updFn_out, updFn_in]
          by_cases hbid : B.id = rt
          · rw [if_pos hbid]
            have hAne : A.id ≠ tid := by
              intro he
              exact hfresh (he ▸ List.mem_map_of_mem Thought.id hA)
            constructor
            · intro hmem
              rcases mem_append_one.mp hmem with hmem | heq
              · exact (hcons A hA B hB T).mp hmem
              · rw [hie] at heq
                rw [RelEntry.mk.injEq] at heq
                exact absurd heq.1 hAne
            · intro hmem
              exact List.mem_append_left _ ((hcons A hA B hB T).mpr hmem)
          · rw [if_neg hbid]
            exact hcons A hA B hB T
        · -- source is the new thought
          rw [updFn_id, updFn_in, hntid, hntout]
          by_cases hbid : B.id = rt
          · rw [if_pos hbid]
            constructor
            · intro hmem
              rcases mem_append_one.mp hmem with hmem | heq
              · exfalso
                have := hin B hB _ hmem
                exact hfresh this
              · rw [hie] at heq
                rw [RelEntry.mk.injEq] at heq
                rw [List.mem_singleton, RelEntry.mk.injEq]
                exact ⟨hbid, heq.2⟩
            · intro hmem
              rw [List.mem_singleton, RelEntry.mk.injEq] at hmem
              exact List.mem_append_right _
                (by rw [List.mem_singleton, hie, RelEntry.mk.injEq]
                    exact ⟨rfl, hmem.2⟩)
          · rw [if_neg hbid]
            constructor
            · intro hmem
              exfalso
              have := hin B hB _ hmem
              exact hfresh this
            · intro hmem
              rw [List.mem_singleton, RelEntry.mk.injEq] at hmem
              exact absurd hmem.1 hbid
      · rw [hntin]
        constructor
        · intro hmem
          cases hmem
        · intro hmem
          exfalso
          rcases mem_append_one.mp hA' with hA' | rfl
          · obtain ⟨A, hA, rfl⟩ := hmemmap hA'
            rw [updFn_out] at hmem
            rw [hntid] at hmem
            have := hout A hA _ hmem
            exact hfresh this
          · rw [hntout] at hmem
            rw [hntid] at hmem
            rw [List.mem_singleton, RelEntry.mk.injEq] at hmem
            exact hfresh (hmem.1 ▸ hrtmem)

/-- Every session reachable by successful `think` appends satisfies
the invariant. -/
theorem reachable_inv {ts : List Thought} (h : Reachable ts) : Inv ts := by
  induction h with
  | nil =>
    refine ⟨List.nodup_nil, ?_, ?_, ?_⟩
    · intro A hA
      cases hA
    · intro B hB
      cases hB
    · intro A hA
      cases hA
  | step ts reasoning mode tags rto rel tid tstamp ts' hreach hfresh hok ih =>
    exact inv_step ih hfresh hok

/-- C5: in every session state reachable from the empty session by
successful `think` appends (with fresh generated ids), for all thoughts
`A`, `B` and every relationship type `T`: `B.relationships_in`
contains `{A, T}` iff `A.relationships_out` contains `{B, T}`. -/
theorem c5_in_out_consistent (ts : List Thought) (h : Reachable ts) :
    ∀ A ∈ ts, ∀ B ∈ ts, ∀ T : String,
      (({ thought_id := A.id, relationship_type := T } : RelEntry) ∈
          B.relationships_in ↔
       ({ thought_id := B.id, relationship_type := T } : RelEntry) ∈
          A.relationships_out) :=
  (reachable_inv h).2.2.2

/-- Concrete first thought for the C5 witness. -/
def w1 : Thought := newThought "a" none none "t1" 0

/-- `w1` after receiving the inbound edge from `w2`. -/
def w1x : Thought :=
  { w1 with relationships_in :=
      [{ thought_id := "t2", relationship_type := "builds_on" }] }

/-- Concrete second thought, building on `w1`. -/
def w2 : Thought :=
  { newThought "b" none none "t2" 1 with
      relates_to := some "t1"
      relationship_type := some "builds_on"
      relationships_out :=
        [{ thought_id := "t1", relationship_type := "builds_on" }] }

/-- The two-thought session produced by the two appends. -/
def wlist : List Thought := [w1x, w2]

/-- `wlist` is reachable by two successful `think` appends. -/
theorem wlist_reachable : Reachable wlist :=
  Reachable.step [w1] "b" none none (some "t1") (some "builds_on") "t2" 1
    wlist
    (Reachable.step [] "a" none none none none "t1" 0 [w1]
      Reachable.nil (by decide) (by decide))
    (by decide) (by decide)

/-- Witness for C5 on the concrete two-thought session. -/
theorem c5_in_out_consistent_witness :
    (({ thought_id := w2.id, relationship_type := "builds_on" } :
        RelEntry) ∈ w1x.relationships_in ↔
     ({ thought_id := w1x.id, relationship_type := "builds_on" } :
        RelEntry) ∈ w2.relationships_out) :=
  c5_in_out_consistent wlist wlist_reachable w2 (by decide) w1x
    (by decide) "builds_on"

end SessionThink
